import Mathlib

/-!
# Verification of the UAV mission-editor state-machine core

Shallow embedding of the state-machine data model, the graph projector
(`build_graph_elements`, `get_state_type`), the reconciliation engine
(`handle_new_edges`, `handle_deleted_edges`, `handle_deleted_nodes`) from
`src/views/visual_state_editor_view.py`, the persistence encoding choice from
`src/utils/mission_types_manager.py` (`save_mission_type`), and the
load-time normalization of malformed specs
(`render_visual_state_editor`, lines 106-116).

Python dictionaries are modelled as association lists (`List (String × _)`);
dictionary keys are unique, which appears as `Nodup` hypotheses where needed.
Keys that may be absent in the Python dicts are modelled as present with their
default value (`.get(k, default)` semantics), which is extensionally faithful
because every access in the translated code goes through such defaulted reads.
String manipulation (splitting, slicing, length, joining, comparison) is
modelled on the underlying character lists, matching Python's
character-by-character semantics.
-/

namespace UavMission

/-- A transition as stored under `state_transitions.conditions`:
`{"condition": ..., "next_state": ...}`. A missing `condition` key defaults to
`"True"` at the one read site (`build_graph_elements`), so it is modelled as
always present. -/
structure Transition where
  condition : String
  next_state : String
deriving DecidableEq, Repr

/-- One state's data dictionary. `error = some t` models
`state_transitions["error"] = {"next_state": t}` (key present); `none` models
the absent key. A Python-falsy state value (`None` or `{}`) is normalized by
`build_graph_elements` (lines 208-212) to the default empty dictionary, which
this structure represents with all fields empty. -/
structure StateData where
  prompt : String
  tools : List String
  observations : List String
  conditions : List Transition
  error : Option String
deriving DecidableEq, Repr

/-- The default empty state data assigned by `build_graph_elements` when a
state's value is `None`. -/
def defaultStateData : StateData :=
  { prompt := "", tools := [], observations := [], conditions := [], error := none }

/-- The mutable data the reconciliation engine acts on: the `states` dictionary
of `default_state` and the `ui_metadata["positions"]` dictionary (absent
`ui_metadata` is modelled as the empty list). Coordinates are modelled as
integers; no claim computes with coordinate values. -/
structure Machine where
  states : List (String × StateData)
  positions : List (String × (Int × Int))
deriving DecidableEq, Repr

/-- A `StreamlitFlowNode` restricted to the fields the core reads:
`id`, `pos`, `data['label']`, `deletable`. -/
structure FlowNode where
  id : String
  pos : Int × Int
  label : String
  deletable : Bool
deriving DecidableEq, Repr

/-- A `StreamlitFlowEdge` restricted to the fields the core reads. `errStyle`
records which of the two edge constructions (ordinary blue vs dashed red error
styling) produced the edge. -/
structure FlowEdge where
  id : String
  source : String
  target : String
  label : String
  errStyle : Bool
deriving DecidableEq, Repr

/-- Dictionary lookup: `d[k]` / `k in d` on a Python dict, as first-match
search on the association list. -/
def lookupState (l : List (String × StateData)) (k : String) : Option StateData :=
  (l.find? (fun p => decide (p.1 = k))).map (fun p => p.2)

/-- Position-dictionary lookup. -/
def lookupPos (l : List (String × (Int × Int))) (k : String) : Option (Int × Int) :=
  (l.find? (fun p => decide (p.1 = k))).map (fun p => p.2)

/-- In-place update of the (unique) entry with key `k`: `d[k] = f d[k]`. -/
def updateState (l : List (String × StateData)) (k : String) (f : StateData → StateData) :
    List (String × StateData) :=
  match l with
  | [] => []
  | (n, d) :: rest => if n = k then (n, f d) :: rest else (n, d) :: updateState rest k f

/-- Models Python `a.startswith`-style comparison on character lists: the first
list is an initial segment of the second. -/
def leadMatch : List Char → List Char → Bool
  | [], _ => true
  | _ :: _, [] => false
  | a :: as, b :: bs => a = b && leadMatch as bs

/-- Substring occurrence on character lists. -/
def hasSub (pat : List Char) : List Char → Bool
  | [] => leadMatch pat []
  | b :: bs => leadMatch pat (b :: bs) || hasSub pat bs

/-- Models the Python substring test `pat in s`. -/
def strContains (s pat : String) : Bool :=
  hasSub pat.data s.data

/-- Models Python `s.split(sep)` for a one-character separator, on character
lists: `"a|b".split("|") = ["a","b"]`, `"".split("|") = [""]`. -/
def splitOnChar (sep : Char) : List Char → List (List Char)
  | [] => [[]]
  | c :: cs =>
    match splitOnChar sep cs with
    | [] => [[c]]
    | h :: t => if c = sep then [] :: h :: t else (c :: h) :: t

/-- Models `edge_id.split("|")`. -/
def splitParts (s : String) : List String :=
  (splitOnChar '|' s.data).map String.mk

/-- Models Python `sep.join(parts)`. -/
def joinWith (sep : String) : List String → String
  | [] => ""
  | [x] => x
  | x :: xs => x ++ sep ++ joinWith sep xs

/-- Python `len(s)` (number of characters). -/
def strLen (s : String) : Nat := s.data.length

/-- Python slicing `s[:n]` (first `n` characters). -/
def strTake (s : String) (n : Nat) : String := String.mk (s.data.take n)

/-- Lexicographic `≤` on strings by code point, as Python compares strings. -/
def strLe (a b : String) : Bool :=
  go a.data b.data
where
  go : List Char → List Char → Bool
    | [], _ => true
    | _ :: _, [] => false
    | a :: as, b :: bs => if a < b then true else if b < a then false else go as bs

/-- Insert into a sorted list (component of `sorted(...)`). -/
def insertSorted (s : String) : List String → List String
  | [] => [s]
  | x :: xs => if strLe s x then s :: x :: xs else x :: insertSorted s xs

/-- Models Python `sorted(list_of_strings)` (insertion sort; same multiset,
ascending order). -/
def sortKeys : List String → List String
  | [] => []
  | x :: xs => insertSorted x (sortKeys xs)

/-! ## Reconciliation engine (`handle_new_edges`, `handle_deleted_edges`,
`handle_deleted_nodes`, lines 809-888) -/

/-- Loop body of `handle_new_edges`: a post-edit edge whose id is not among
the pre-edit ids is decoded via its `source`/`target` fields; if the source is
a defined state and no existing transition of the source targets the target, a
default `{"condition": "True", "next_state": target}` transition is appended. -/
def newEdgeStep (beforeIds : List String) (acc : Machine × Bool) (e : FlowEdge) :
    Machine × Bool :=
  if e.id ∈ beforeIds then acc
  else
    match lookupState acc.1.states e.source with
    | none => acc
    | some d =>
      if d.conditions.any (fun c => decide (c.next_state = e.target)) then acc
      else
        ({ acc.1 with
            states := updateState acc.1.states e.source
              (fun x => { x with conditions := x.conditions ++ [⟨"True", e.target⟩] }) },
          true)

/-- `handle_new_edges(new_state, original_edges, states, ...)`. -/
def handle_new_edges (beforeIds : List String) (afterEdges : List FlowEdge) (m : Machine) :
    Machine × Bool :=
  afterEdges.foldl (newEdgeStep beforeIds) (m, false)

/-- Remove the first transition whose `next_state` equals `tgt`
(the `enumerate`/`pop`/`break` loop of `handle_deleted_edges`). -/
def removeFirstTarget : List Transition → String → List Transition
  | [], _ => []
  | c :: cs, tgt => if c.next_state = tgt then cs else c :: removeFirstTarget cs tgt

/-- Loop body of `handle_deleted_edges`: a pre-edit edge whose id no longer
occurs is decoded by splitting its id on `"|"`; the error classification is
the substring test `"error" in orig_edge.id` on the WHOLE id (not the third
component). -/
def deletedEdgeStep (currentIds : List String) (acc : Machine × Bool) (e : FlowEdge) :
    Machine × Bool :=
  if e.id ∈ currentIds then acc
  else
    match splitParts e.id with
    | src :: tgt :: _ =>
      match lookupState acc.1.states src with
      | none => acc
      | some d =>
        if strContains e.id "error" then
          if d.error.isSome then
            ({ acc.1 with
                states := updateState acc.1.states src (fun x => { x with error := none }) },
              true)
          else acc
        else
          if d.conditions.any (fun c => decide (c.next_state = tgt)) then
            ({ acc.1 with
                states := updateState acc.1.states src
                  (fun x => { x with conditions := removeFirstTarget x.conditions tgt }) },
              true)
          else acc
    | _ => acc

/-- `handle_deleted_edges(new_state, original_edges, states, ...)`. -/
def handle_deleted_edges (currentIds : List String) (beforeEdges : List FlowEdge)
    (m : Machine) : Machine × Bool :=
  beforeEdges.foldl (deletedEdgeStep currentIds) (m, false)

/-- Cascade part of node deletion: drop every transition targeting `nid` and
clear an `errorTransition` whose `next_state` equals `nid`. -/
def cascadeRemove (d : StateData) (nid : String) : StateData :=
  { d with
    conditions := d.conditions.filter (fun c => !decide (c.next_state = nid)),
    error := if d.error = some nid then none else d.error }

/-- Body of the `handle_deleted_nodes` loop for one vanished node id: if it is
a defined state, remove it, cascade over the remaining states, and purge its
stored position. -/
def deletedNodeStep (acc : Machine × Bool) (nid : String) : Machine × Bool :=
  if (lookupState acc.1.states nid).isSome then
    ({ states :=
        (acc.1.states.filter (fun p => !decide (p.1 = nid))).map
          (fun p => (p.1, cascadeRemove p.2 nid)),
       positions := acc.1.positions.filter (fun p => !decide (p.1 = nid)) },
      true)
  else acc

/-- `handle_deleted_nodes(new_state, original_nodes, states, ...)`. -/
def handle_deleted_nodes (currentNodeIds : List String) (beforeNodes : List FlowNode)
    (m : Machine) : Machine × Bool :=
  beforeNodes.foldl
    (fun acc n => if n.id ∈ currentNodeIds then acc else deletedNodeStep acc n.id)
    (m, false)

/-- The full reconciliation pass of `render_visual_state_editor`
(lines 165-168): the three handlers in order, or-ing the changed flags. -/
def reconcile (origEdges newEdges : List FlowEdge) (origNodes newNodes : List FlowNode)
    (m : Machine) : Machine × Bool :=
  let r1 := handle_new_edges (origEdges.map (fun e => e.id)) newEdges m
  let r2 := handle_deleted_edges (newEdges.map (fun e => e.id)) origEdges r1.1
  let r3 := handle_deleted_nodes (newNodes.map (fun n => n.id)) origNodes r2.1
  (r3.1, r1.2 || r2.2 || r3.2)

/-! ## Graph projector (`get_state_type`, `build_graph_elements`, lines 50-379) -/

/-- `get_state_type(state_name, state_data)` (lines 50-62). The Python guard
`if state_data:` (falsy for `None`/`{}`) is extensionally absorbed by the
`conditions ≠ []` test, since a falsy state value carries no conditions. -/
def get_state_type (state_name : String) (state_data : StateData) : String :=
  if state_name = "end" then "end"
  else if state_name = "error" then "error"
  else if state_data.conditions ≠ [] ∧
      state_data.conditions.all
        (fun c => decide (c.next_state = "end") || decide (c.next_state = "error")) then
    "end"
  else "normal"

/-- One step of the target-grouping dictionary build
(`target_conditions[nxt].append((j, cond))`, creating the entry if absent). -/
def addEntry (acc : List (String × List (Nat × String))) (k : String) (v : Nat × String) :
    List (String × List (Nat × String)) :=
  match acc with
  | [] => [(k, [v])]
  | (k', vs) :: rest =>
    if k' = k then (k', vs ++ [v]) :: rest else (k', vs) :: addEntry rest k v

/-- The `target_conditions` dictionary of `build_graph_elements`
(lines 270-277): indexed transitions grouped by truthy `next_state`,
preserving first-appearance key order. -/
def groupByTarget (l : List (Nat × Transition)) : List (String × List (Nat × String)) :=
  l.foldl
    (fun acc jc =>
      if jc.2.next_state = "" then acc
      else addEntry acc jc.2.next_state (jc.1, jc.2.condition))
    []

/-- The entry for key `k` in the grouping dictionary (empty when absent). -/
def entryFor (acc : List (String × List (Nat × String))) (k : String) : List (Nat × String) :=
  match acc.find? (fun p => decide (p.1 = k)) with
  | some p => p.2
  | none => []

/-- The combined edge label (lines 280-296): one condition shows truncated to
30 characters; several show individually truncated joined by `" | "`, or a
count once the joined label exceeds 50 characters. -/
def groupLabel (lst : List (Nat × String)) : String :=
  match lst with
  | [(_, c)] => if strLen c > 30 then strTake c 27 ++ "..." else c
  | _ =>
    let labels := lst.map (fun p => if strLen p.2 < 25 then p.2 else strTake p.2 22 ++ "...")
    let dl := joinWith " | " labels
    if strLen dl > 50 then toString lst.length ++ " conditions" else dl

/-- The grouped edge for `(state_name, nxt)`:
`id = f"{state_name}|{nxt}|{indices_str}"` (lines 298-315). -/
def mkGroupEdge (state_name nxt : String) (lst : List (Nat × String)) : FlowEdge :=
  { id := state_name ++ "|" ++ nxt ++ "|" ++ joinWith "," (lst.map (fun p => toString p.1)),
    source := state_name, target := nxt, label := groupLabel lst, errStyle := false }

/-- The ordinary (grouped) edges of one state. -/
def transitionEdges (state_name : String) (sd : StateData) : List FlowEdge :=
  (groupByTarget sd.conditions.enum).map (fun g => mkGroupEdge state_name g.1 g.2)

/-- The dashed error edge of one state, emitted when
`trans.get("error", {}).get("next_state")` is truthy (lines 319-333). -/
def errorEdges (state_name : String) (sd : StateData) : List FlowEdge :=
  match sd.error with
  | none => []
  | some t =>
    if t = "" then []
    else
      [{ id := state_name ++ "|" ++ t ++ "|error", source := state_name, target := t,
         label := "⚠️ error", errStyle := true }]

/-- All edges appended while visiting one state. -/
def edgesForState (state_name : String) (sd : StateData) : List FlowEdge :=
  transitionEdges state_name sd ++ errorEdges state_name sd

/-- Deterministic grid fallback (`cols = 2`, spacing 300 × 200, origin
(100, 80)): position of the `i`-th node placed so far. -/
def gridPos (i : Nat) : Int × Int :=
  (100 + (Int.ofNat (i % 2)) * 300, 80 + (Int.ofNat (i / 2)) * 200)

/-- Stored sidecar position if present, else grid fallback at index `i`. -/
def posFor (positions : List (String × (Int × Int))) (name : String) (i : Nat) : Int × Int :=
  match lookupPos positions name with
  | some p => p
  | none => gridPos i

/-- `states[name]` read during projection; `None` values were normalized to
the default dictionary just before (lines 208-212). -/
def lookupData (states : List (String × StateData)) (name : String) : StateData :=
  (lookupState states name).getD defaultStateData

/-- The node built for the `i`-th defined state in sorted order
(lines 214-263): label by role/initial marking, always deletable. -/
def mkStateNode (i : Nat) (name : String) (sd : StateData) (initial : String)
    (positions : List (String × (Int × Int))) : FlowNode :=
  let stype := get_state_type name sd
  let label :=
    if name = initial then "🚀 " ++ name
    else if stype = "end" then "🏁 " ++ name
    else if stype = "error" then "⚠️ " ++ name
    else "📦 " ++ name
  { id := name, pos := posFor positions name i, label := label, deletable := true }

/-- The `referenced` set of target ids (lines 336-344), collected in document
order and deduplicated (Python uses a `set`; only membership matters and no
claim depends on iteration order). -/
def collectRefs (states : List (String × StateData)) : List String :=
  (states.foldl
      (fun acc p =>
        acc
          ++ p.2.conditions.filterMap
              (fun c => if c.next_state = "" then none else some c.next_state)
          ++ (match p.2.error with
              | some t => if t = "" then [] else [t]
              | none => []))
      []).dedup

/-- A synthesized placeholder node (lines 346-377): not deletable, placed at
the grid slot for the current node count unless a stored position exists. -/
def mkPlaceholder (r : String) (positions : List (String × (Int × Int))) (n : Nat) :
    FlowNode :=
  let label :=
    if r = "end" then "🏁 end"
    else if r = "error" then "⚠️ error"
    else "❓ " ++ r
  { id := r, pos := posFor positions r n, label := label, deletable := false }

/-- The placeholder loop: append one node per referenced id that names no
defined state and no already-present node. -/
def addPlaceholders (states : List (String × StateData))
    (positions : List (String × (Int × Int))) (init : List FlowNode)
    (refs : List String) : List FlowNode :=
  refs.foldl
    (fun acc r =>
      if r ≠ "" ∧ lookupState states r = none ∧ acc.all (fun n => !decide (n.id = r))
      then acc ++ [mkPlaceholder r positions acc.length]
      else acc)
    init

/-- `build_graph_elements(states, initial_state, ui_metadata)` (lines
194-379): one node per defined state in sorted key order, grouped transition
edges plus error edges, then placeholder nodes for dangling references. -/
def build_graph_elements (states : List (String × StateData)) (initial : String)
    (positions : List (String × (Int × Int))) : List FlowNode × List FlowEdge :=
  let names := sortKeys (states.map Prod.fst)
  let defNodes := names.enum.map
    (fun p => mkStateNode p.1 p.2 (lookupData states p.2) initial positions)
  let allEdges := names.foldl (fun acc n => acc ++ edgesForState n (lookupData states n)) []
  let nodes := addPlaceholders states positions defNodes (collectRefs states)
  (nodes, allEdges)

/-! ## Persistence (`save_mission_type`, `mission_types_manager.py` lines
134-153) and load-time normalization (`render_visual_state_editor` lines
106-116) -/

/-- The two on-disk encodings: structured-indentation (YAML) and
brace-delimited (JSON). -/
inductive FileFormat where
  | yaml
  | json
deriving DecidableEq, Repr

/-- Outcome of one `save_mission_type(name, config, prefer_yaml)` call:
which files exist for the name afterwards, which encoding was written, and the
dictionary that was serialized. -/
structure SaveOutcome (V : Type) where
  jsonExists : Bool
  yamlExists : Bool
  format : FileFormat
  savedConfig : List (String × V)
deriving DecidableEq, Repr

/-- The `ui_metadata` strip (line 142):
`config_to_save = {k: v for k, v in config.items() if k != 'ui_metadata'}`. -/
def configToSave {V : Type} (config : List (String × V)) : List (String × V) :=
  config.filter (fun p => !decide (p.1 = "ui_metadata"))

/-- `save_mission_type` (lines 134-153) as a function of the prior file state
for the name: YAML is written when a YAML file exists or the caller asks for
it (deleting any JSON file); otherwise JSON is written. -/
def save_mission_type {V : Type} (_jsonExists yamlExists : Bool)
    (config : List (String × V)) (preferYaml : Bool) : SaveOutcome V :=
  let saved := configToSave config
  if yamlExists || preferYaml then
    { jsonExists := false, yamlExists := true, format := .yaml, savedConfig := saved }
  else
    { jsonExists := true, yamlExists := yamlExists, format := .json, savedConfig := saved }

/-- The `default_state` dictionary as loaded, before normalization:
`initial_state` may be absent (`none`) and `states` may be absent or not a
dictionary (`none`). -/
structure RawConfig where
  initial_state : Option String
  states : Option (List (String × StateData))
deriving DecidableEq, Repr

/-- The `default_state` dictionary after the normalization of lines 106-116. -/
structure NormConfig where
  initial_state : Option String
  states : List (String × StateData)
deriving DecidableEq, Repr

/-- Python truthiness of `config.get("initial_state")`. -/
def pyTruthy : Option String → Bool
  | none => false
  | some s => !decide (s = "")

/-- Lines 106-116 of `render_visual_state_editor`: replace a missing/non-dict
`states` by the empty dictionary; reassign `initial_state` to the first state
key when it is truthy-but-dangling or falsy, provided any state exists. -/
def normalizeConfig (c : RawConfig) : NormConfig :=
  let states := c.states.getD []
  let keys := states.map Prod.fst
  let init :=
    if pyTruthy c.initial_state ∧ (c.initial_state.getD "") ∉ keys ∧ states ≠ [] then
      some (keys.headD "")
    else if ¬ pyTruthy c.initial_state ∧ states ≠ [] then
      some (keys.headD "")
    else c.initial_state
  { initial_state := init, states := states }

/-- After deleting state `S`, no trace of `S` remains: `S` is not a state
key, no remaining transition targets `S`, no remaining `errorTransition`
targets `S`, and `S` has no stored position. -/
def noRefTo (S : String) (m : Machine) : Prop :=
  lookupState m.states S = none ∧
  (∀ p ∈ m.states, (∀ c ∈ p.2.conditions, c.next_state ≠ S) ∧ p.2.error ≠ some S) ∧
  lookupPos m.positions S = none

/-! ## Helper lemmas -/

/-- A fold whose step skips every element satisfying `P` leaves the
accumulator unchanged. -/
theorem foldl_skip {α β : Type} (step : β → α → β) (P : α → Prop)
    (hstep : ∀ acc x, P x → step acc x = acc) :
    ∀ (l : List α) (acc : β), (∀ x ∈ l, P x) → l.foldl step acc = acc := by
  intro l
  induction l with
  | nil => intro acc _; rfl
  | cons x xs ih =>
    intro acc h
    rw [List.foldl_cons, hstep acc x (h x (List.mem_cons_self x xs))]
    exact ih acc (fun y hy => h y (List.mem_cons_of_mem x hy))

/-- A fold preserves any invariant its step preserves. -/
theorem foldl_preserve {α β : Type} (step : β → α → β) (Q : β → Prop)
    (hstep : ∀ acc x, Q acc → Q (step acc x)) :
    ∀ (l : List α) (acc : β), Q acc → Q (l.foldl step acc) := by
  intro l
  induction l with
  | nil => intro acc h; exact h
  | cons x xs ih => intro acc h; exact ih _ (hstep acc x h)

theorem mapFst_updateState (l : List (String × StateData)) (k : String)
    (f : StateData → StateData) :
    (updateState l k f).map Prod.fst = l.map Prod.fst := by
  induction l with
  | nil => rfl
  | cons p rest ih =>
    obtain ⟨n, d⟩ := p
    by_cases h : n = k <;> simp [updateState, h, ih]

theorem lookupState_cons_self (k : String) (d : StateData) (rest : List (String × StateData)) :
    lookupState ((k, d) :: rest) k = some d := by
  simp [lookupState]

theorem lookupState_cons_ne (n k : String) (d : StateData) (rest : List (String × StateData))
    (hn : n ≠ k) : lookupState ((n, d) :: rest) k = lookupState rest k := by
  simp [lookupState, hn]

theorem lookupState_updateState_self (l : List (String × StateData)) (k : String)
    (f : StateData → StateData) (d : StateData) (h : lookupState l k = some d) :
    lookupState (updateState l k f) k = some (f d) := by
  induction l with
  | nil => simp [lookupState] at h
  | cons p rest ih =>
    obtain ⟨n, d'⟩ := p
    by_cases hn : n = k
    · subst hn
      rw [lookupState_cons_self] at h
      obtain rfl := Option.some.inj h
      simp [updateState, lookupState_cons_self]
    · rw [lookupState_cons_ne n k d' rest hn] at h
      simp only [updateState, if_neg hn]
      rw [lookupState_cons_ne n k d' _ hn]
      exact ih h

theorem lookupState_eq_none_iff (l : List (String × StateData)) (k : String) :
    lookupState l k = none ↔ ∀ p ∈ l, p.1 ≠ k := by
  simp [lookupState, List.find?_eq_none]

theorem lookupState_isSome_iff (l : List (String × StateData)) (k : String) :
    (lookupState l k).isSome ↔ k ∈ l.map Prod.fst := by
  simp only [lookupState, Option.isSome_map']
  rw [List.find?_isSome]
  constructor
  · rintro ⟨p, hp, hk⟩
    simp only [decide_eq_true_eq] at hk
    exact hk ▸ List.mem_map_of_mem Prod.fst hp
  · intro hk
    obtain ⟨p, hp, hpk⟩ := List.mem_map.mp hk
    exact ⟨p, hp, by simp [hpk]⟩

theorem removeFirstTarget_eq (l : List Transition) (tgt : String) :
    removeFirstTarget l tgt =
      l.takeWhile (fun c => !decide (c.next_state = tgt)) ++
        (l.dropWhile (fun c => !decide (c.next_state = tgt))).tail := by
  induction l with
  | nil => rfl
  | cons c cs ih =>
    by_cases h : c.next_state = tgt <;>
      simp [removeFirstTarget, List.takeWhile_cons, List.dropWhile_cons, h, ih]

/-! ## C1: reconciliation is a strict no-op when before equals after -/

theorem newEdgeStep_skip (ids : List String) (acc : Machine × Bool) (e : FlowEdge)
    (h : e.id ∈ ids) : newEdgeStep ids acc e = acc := by
  simp [newEdgeStep, h]

theorem deletedEdgeStep_skip (ids : List String) (acc : Machine × Bool) (e : FlowEdge)
    (h : e.id ∈ ids) : deletedEdgeStep ids acc e = acc := by
  simp [deletedEdgeStep, h]

theorem handle_new_edges_all_old (ids : List String) (E : List FlowEdge) (m : Machine)
    (h : ∀ e ∈ E, e.id ∈ ids) : handle_new_edges ids E m = (m, false) :=
  foldl_skip _ (fun e => e.id ∈ ids) (newEdgeStep_skip ids) E (m, false) h

theorem handle_deleted_edges_all_kept (ids : List String) (E : List FlowEdge) (m : Machine)
    (h : ∀ e ∈ E, e.id ∈ ids) : handle_deleted_edges ids E m = (m, false) :=
  foldl_skip _ (fun e => e.id ∈ ids) (deletedEdgeStep_skip ids) E (m, false) h

theorem handle_deleted_nodes_all_kept (ids : List String) (N : List FlowNode) (m : Machine)
    (h : ∀ n ∈ N, n.id ∈ ids) : handle_deleted_nodes ids N m = (m, false) :=
  foldl_skip _ (fun n => n.id ∈ ids) (fun acc n hn => by simp [hn]) N (m, false) h

/-- C1: Reconciliation is idempotent: feeding the engine identical before and
after graphs (in particular both equal to the projection of the machine)
performs no mutation of the machine and reports `changed = false`. -/
theorem reconcile_no_op_on_equal_graphs (E : List FlowEdge) (N : List FlowNode)
    (m : Machine) : reconcile E E N N m = (m, false) := by
  have h1 : handle_new_edges (E.map (fun e => e.id)) E m = (m, false) :=
    handle_new_edges_all_old _ _ _ (fun e he => List.mem_map_of_mem _ he)
  have h2 : handle_deleted_edges (E.map (fun e => e.id)) E m = (m, false) :=
    handle_deleted_edges_all_kept _ _ _ (fun e he => List.mem_map_of_mem _ he)
  have h3 : handle_deleted_nodes (N.map (fun n => n.id)) N m = (m, false) :=
    handle_deleted_nodes_all_kept _ _ _ (fun n hn => List.mem_map_of_mem _ hn)
  simp [reconcile, h1, h2, h3]

/-! ## C3: new-edge minimality -/

/-- C3: when a single new edge from a defined state `A = e.source` to
`B = e.target` appears and no existing transition of `A` targets `B`, exactly
one default transition `{condition := "True", next_state := B}` is appended to
`A` (the rest of the machine is untouched) and the changed flag is true;
re-running the same diff on the mutated machine changes nothing further. -/
theorem new_edge_minimality (beforeE : List FlowEdge) (e : FlowEdge) (m : Machine)
    (d : StateData)
    (hnew : e.id ∉ beforeE.map (fun x => x.id))
    (hsrc : lookupState m.states e.source = some d)
    (hno : ∀ c ∈ d.conditions, c.next_state ≠ e.target) :
    handle_new_edges (beforeE.map (fun x => x.id)) (beforeE ++ [e]) m =
      ({ m with
          states := updateState m.states e.source
            (fun x => { x with conditions := x.conditions ++ [⟨"True", e.target⟩] }) },
        true) ∧
    handle_new_edges (beforeE.map (fun x => x.id)) (beforeE ++ [e])
        { m with
          states := updateState m.states e.source
            (fun x => { x with conditions := x.conditions ++ [⟨"True", e.target⟩] }) } =
      ({ m with
          states := updateState m.states e.source
            (fun x => { x with conditions := x.conditions ++ [⟨"True", e.target⟩] }) },
        false) := by
  have hany : d.conditions.any (fun c => decide (c.next_state = e.target)) = false := by
    simp only [List.any_eq_false, decide_eq_true_eq]
    exact hno
  constructor
  · unfold handle_new_edges
    rw [List.foldl_append,
      foldl_skip _ (fun x => x.id ∈ beforeE.map (fun x => x.id))
        (newEdgeStep_skip _) beforeE (m, false) (fun x hx => List.mem_map_of_mem _ hx)]
    simp [newEdgeStep, hnew, hsrc, hany]
  · unfold handle_new_edges
    rw [List.foldl_append,
      foldl_skip _ (fun x => x.id ∈ beforeE.map (fun x => x.id))
        (newEdgeStep_skip _) beforeE _ (fun x hx => List.mem_map_of_mem _ hx)]
    have hsrc' :
        lookupState
          (updateState m.states e.source
            (fun x => { x with conditions := x.conditions ++ [⟨"True", e.target⟩] }))
          e.source = some { d with conditions := d.conditions ++ [⟨"True", e.target⟩] } :=
      lookupState_updateState_self _ _ _ _ hsrc
    simp [newEdgeStep, hnew, hsrc']

/-- Witness for C3 at a concrete machine: state `"a"` with no transition to
`"b"` gains exactly `{condition := "True", next_state := "b"}`. -/
theorem new_edge_minimality_witness :
    handle_new_edges ["a|c|0"]
        [⟨"a|c|0", "a", "c", "", false⟩, ⟨"reactflow__edge-1", "a", "b", "", false⟩]
        ⟨[("a", { defaultStateData with conditions := [⟨"True", "c"⟩] })], []⟩ =
      (⟨[("a", { defaultStateData with conditions := [⟨"True", "c"⟩, ⟨"True", "b"⟩] })], []⟩,
        true) := by
  have h :=
    (new_edge_minimality [⟨"a|c|0", "a", "c", "", false⟩]
      ⟨"reactflow__edge-1", "a", "b", "", false⟩
      ⟨[("a", { defaultStateData with conditions := [⟨"True", "c"⟩] })], []⟩
      { defaultStateData with conditions := [⟨"True", "c"⟩] }
      (by decide) (by decide) (by decide)).1
  exact h.trans (by decide)

/-! ## C4: deleted-edge rule -/

/-- C4 counterexample: the code classifies a deleted edge as an error edge by
the substring test `"error" in edge.id` on the whole id, not by the third id
component (the kind). For the ordinary edge `"a|error|0"` (a transition of
`"a"` targeting the state id `"error"`, kind component `"0"`), the claim
prescribes removing the first transition of `"a"` targeting `"error"` and
leaving `errorTransition` alone; the code instead clears `"a"`'s
`errorTransition` (targeting `"b"`) and keeps the transition. -/
theorem deleted_edge_kind_counterexample :
    (splitParts "a|error|0").getD 2 "" ≠ "error" ∧
    handle_deleted_edges [] [⟨"a|error|0", "a", "error", "", false⟩]
        ⟨[("a",
            { defaultStateData with conditions := [⟨"True", "error"⟩], error := some "b" })],
          []⟩ =
      (⟨[("a", { defaultStateData with conditions := [⟨"True", "error"⟩], error := none })],
          []⟩,
        true) ∧
    handle_deleted_edges [] [⟨"a|error|0", "a", "error", "", false⟩]
        ⟨[("a",
            { defaultStateData with conditions := [⟨"True", "error"⟩], error := some "b" })],
          []⟩ ≠
      (⟨[("a", { defaultStateData with conditions := [], error := some "b" })], []⟩, true) := by
  decide

/-- C4 amended: for a single deleted edge decoded as `src :: tgt :: _`
with `src` a defined state, the engine treats the edge as an error edge iff
the substring `"error"` occurs anywhere in its id (in particular when the kind
component is `"error"`, but also when the source or target contains
`"error"`); in the error case it clears `src`'s `errorTransition` when one is
present; otherwise it removes exactly the first transition of `src` whose
target equals `tgt`, leaving all other transitions untouched. -/
theorem deleted_edge_rule (b₁ b₂ : List FlowEdge) (e : FlowEdge) (afterIds : List String)
    (m : Machine) (src tgt : String) (rest : List String) (d : StateData)
    (h₁ : ∀ x ∈ b₁, x.id ∈ afterIds) (h₂ : ∀ x ∈ b₂, x.id ∈ afterIds)
    (he : e.id ∉ afterIds)
    (hsplit : splitParts e.id = src :: tgt :: rest)
    (hsrc : lookupState m.states src = some d) :
    handle_deleted_edges afterIds (b₁ ++ e :: b₂) m =
      if strContains e.id "error" then
        if d.error.isSome then
          ({ m with states := updateState m.states src (fun x => { x with error := none }) },
            true)
        else (m, false)
      else if d.conditions.any (fun c => decide (c.next_state = tgt)) then
        ({ m with
            states := updateState m.states src
              (fun x =>
                { x with
                  conditions :=
                    x.conditions.takeWhile (fun c => !decide (c.next_state = tgt)) ++
                      (x.conditions.dropWhile (fun c => !decide (c.next_state = tgt))).tail }) },
          true)
      else (m, false) := by
  unfold handle_deleted_edges
  rw [List.foldl_append,
    foldl_skip _ (fun x => x.id ∈ afterIds) (deletedEdgeStep_skip afterIds) b₁ _ h₁,
    List.foldl_cons,
    foldl_skip _ (fun x => x.id ∈ afterIds) (deletedEdgeStep_skip afterIds) b₂ _ h₂]
  cases herr : strContains e.id "error" with
  | true =>
    cases hes : d.error with
    | some t => simp [deletedEdgeStep, he, hsplit, hsrc, herr, hes]
    | none => simp [deletedEdgeStep, he, hsplit, hsrc, herr, hes]
  | false =>
    cases hc : d.conditions.any (fun c => decide (c.next_state = tgt)) with
    | true =>
      simp only [deletedEdgeStep, hsplit, hsrc, herr, hc, if_neg he, Bool.false_eq_true,
        if_false, if_true]
      simp [removeFirstTarget_eq]
    | false => simp [deletedEdgeStep, he, hsplit, hsrc, herr, hc]

/-- Witness for the amended C4 on a concrete ordinary edge `"x|y|0"`: exactly
the first of the two transitions of `"x"` targeting `"y"` is removed. -/
theorem deleted_edge_rule_witness :
    handle_deleted_edges [] [⟨"x|y|0", "x", "y", "", false⟩]
        ⟨[("x",
            { defaultStateData with
              conditions := [⟨"c1", "z"⟩, ⟨"c2", "y"⟩, ⟨"c3", "y"⟩] })],
          []⟩ =
      (⟨[("x",
            { defaultStateData with conditions := [⟨"c1", "z"⟩, ⟨"c3", "y"⟩] })],
          []⟩,
        true) := by
  have h :=
    deleted_edge_rule [] [] ⟨"x|y|0", "x", "y", "", false⟩ []
      ⟨[("x",
          { defaultStateData with
            conditions := [⟨"c1", "z"⟩, ⟨"c2", "y"⟩, ⟨"c3", "y"⟩] })],
        []⟩
      "x" "y" ["0"]
      { defaultStateData with conditions := [⟨"c1", "z"⟩, ⟨"c2", "y"⟩, ⟨"c3", "y"⟩] }
      (by simp) (by simp) (by decide) (by decide) (by decide)
  exact h.trans (by decide)

/-! ## C2: cascade on node deletion -/

theorem lookupPos_eq_none_iff (l : List (String × (Int × Int))) (k : String) :
    lookupPos l k = none ↔ ∀ p ∈ l, p.1 ≠ k := by
  simp [lookupPos, List.find?_eq_none]

theorem deletedNodeStep_establishes (acc : Machine × Bool) (S : String)
    (hs : (lookupState acc.1.states S).isSome) :
    noRefTo S (deletedNodeStep acc S).1 := by
  unfold deletedNodeStep
  rw [if_pos hs]
  refine ⟨?_, ?_, ?_⟩
  · rw [lookupState_eq_none_iff]
    intro p hp
    rw [List.mem_map] at hp
    obtain ⟨q, hq, rfl⟩ := hp
    have h2 := (List.mem_filter.mp hq).2
    simpa using h2
  · intro p hp
    rw [List.mem_map] at hp
    obtain ⟨q, hq, rfl⟩ := hp
    refine ⟨?_, ?_⟩
    · intro c hc
      have h2 := (List.mem_filter.mp hc).2
      simpa using h2
    · show (cascadeRemove q.2 S).error ≠ some S
      unfold cascadeRemove
      by_cases h' : q.2.error = some S <;> simp [h']
  · rw [lookupPos_eq_none_iff]
    intro p hp
    have h2 := (List.mem_filter.mp hp).2
    simpa using h2

theorem deletedNodeStep_preserves (S : String) (acc : Machine × Bool) (nid : String)
    (h : noRefTo S acc.1) : noRefTo S (deletedNodeStep acc nid).1 := by
  obtain ⟨h1, h2, h3⟩ := h
  unfold deletedNodeStep
  by_cases hs : (lookupState acc.1.states nid).isSome
  · rw [if_pos hs]
    refine ⟨?_, ?_, ?_⟩
    · rw [lookupState_eq_none_iff] at h1 ⊢
      intro p hp
      rw [List.mem_map] at hp
      obtain ⟨q, hq, rfl⟩ := hp
      exact h1 q (List.mem_filter.mp hq).1
    · intro p hp
      rw [List.mem_map] at hp
      obtain ⟨q, hq, rfl⟩ := hp
      obtain ⟨hc, herr⟩ := h2 q (List.mem_filter.mp hq).1
      refine ⟨?_, ?_⟩
      · intro c hcmem
        exact hc c (List.mem_filter.mp hcmem).1
      · show (cascadeRemove q.2 nid).error ≠ some S
        unfold cascadeRemove
        by_cases h' : q.2.error = some nid <;> simp [h', herr]
    · rw [lookupPos_eq_none_iff] at h3 ⊢
      intro p hp
      exact h3 p (List.mem_filter.mp hp).1
  · rw [if_neg hs]
    exact ⟨h1, h2, h3⟩

theorem deletedNodeStep_keeps_key (S nid : String) (acc : Machine × Bool)
    (hS : S ∈ acc.1.states.map Prod.fst) (hne : nid ≠ S) :
    S ∈ ((deletedNodeStep acc nid).1).states.map Prod.fst := by
  unfold deletedNodeStep
  by_cases hs : (lookupState acc.1.states nid).isSome
  · rw [if_pos hs]
    rw [List.mem_map] at hS ⊢
    obtain ⟨q, hq, hq1⟩ := hS
    refine ⟨(q.1, cascadeRemove q.2 nid), ?_, hq1⟩
    refine List.mem_map_of_mem _ (List.mem_filter.mpr ⟨hq, ?_⟩)
    simp only [hq1, Bool.not_eq_eq_eq_not, Bool.not_true, decide_eq_false_iff_not]
    exact fun h => hne h.symm
  · rw [if_neg hs]
    exact hS

theorem handle_deleted_nodes_cascades (curIds : List String) (S : String) :
    ∀ (N : List FlowNode) (acc : Machine × Bool),
      S ∈ N.map (fun n => n.id) → S ∉ curIds → S ∈ acc.1.states.map Prod.fst →
      noRefTo S
        (N.foldl (fun acc n => if n.id ∈ curIds then acc else deletedNodeStep acc n.id)
          acc).1 := by
  intro N
  induction N with
  | nil =>
    intro acc h _ _
    simp at h
  | cons n ns ih =>
    intro acc hmem hout hkey
    rw [List.foldl_cons]
    by_cases hn : n.id = S
    · rw [hn, if_neg hout]
      have hno : noRefTo S (deletedNodeStep acc S).1 :=
        deletedNodeStep_establishes acc S ((lookupState_isSome_iff _ _).mpr hkey)
      exact foldl_preserve
        (fun acc n => if n.id ∈ curIds then acc else deletedNodeStep acc n.id)
        (fun a => noRefTo S a.1)
        (fun a x ha => by
          show noRefTo S (if x.id ∈ curIds then a else deletedNodeStep a x.id).1
          by_cases hx : x.id ∈ curIds
          · rw [if_pos hx]; exact ha
          · rw [if_neg hx]; exact deletedNodeStep_preserves S a x.id ha)
        ns _ hno
    · have hmem' : S ∈ ns.map (fun n => n.id) := by
        rcases List.mem_cons.mp (by simpa using hmem : S ∈ n.id :: ns.map (fun n => n.id)) with
          h | h
        · exact absurd h.symm hn
        · exact h
      have hkey' :
          S ∈ (if n.id ∈ curIds then acc else deletedNodeStep acc n.id).1.states.map Prod.fst := by
        by_cases hx : n.id ∈ curIds
        · rw [if_pos hx]; exact hkey
        · rw [if_neg hx]; exact deletedNodeStep_keeps_key S n.id acc hkey hn
      exact ih _ hmem' hout hkey'

theorem newEdgeStep_keys (ids : List String) (acc : Machine × Bool) (e : FlowEdge) :
    (newEdgeStep ids acc e).1.states.map Prod.fst = acc.1.states.map Prod.fst := by
  unfold newEdgeStep
  by_cases h : e.id ∈ ids
  · rw [if_pos h]
  · rw [if_neg h]
    cases hl : lookupState acc.1.states e.source with
    | none => rfl
    | some d =>
      cases hc : d.conditions.any (fun c => decide (c.next_state = e.target)) with
      | true => simp [hc]
      | false => simp [hc, mapFst_updateState]

theorem deletedEdgeStep_keys (ids : List String) (acc : Machine × Bool) (e : FlowEdge) :
    (deletedEdgeStep ids acc e).1.states.map Prod.fst = acc.1.states.map Prod.fst := by
  unfold deletedEdgeStep
  by_cases h : e.id ∈ ids
  · rw [if_pos h]
  · rw [if_neg h]
    cases hp : splitParts e.id with
    | nil => rfl
    | cons src parts =>
      cases parts with
      | nil => rfl
      | cons tgt rest =>
        cases hl : lookupState acc.1.states src with
        | none => simp [hl]
        | some d =>
          cases herr : strContains e.id "error" with
          | true =>
            cases hes : d.error with
            | some t => simp [hl, herr, hes, mapFst_updateState]
            | none => simp [hl, herr, hes]
          | false =>
            cases hc : d.conditions.any (fun c => decide (c.next_state = tgt)) with
            | true => simp [hl, herr, hc, mapFst_updateState]
            | false => simp [hl, herr, hc]

theorem handle_new_edges_keys (ids : List String) (E : List FlowEdge) (m : Machine) :
    (handle_new_edges ids E m).1.states.map Prod.fst = m.states.map Prod.fst :=
  foldl_preserve _ (fun a => a.1.states.map Prod.fst = m.states.map Prod.fst)
    (fun a x ha => (newEdgeStep_keys ids a x).trans ha) E (m, false) rfl

theorem handle_deleted_edges_keys (ids : List String) (E : List FlowEdge) (m : Machine) :
    (handle_deleted_edges ids E m).1.states.map Prod.fst = m.states.map Prod.fst :=
  foldl_preserve _ (fun a => a.1.states.map Prod.fst = m.states.map Prod.fst)
    (fun a x ha => (deletedEdgeStep_keys ids a x).trans ha) E (m, false) rfl

/-- C2: for every defined state id `S` present among the before-graph nodes
and absent from the after-graph nodes, reconciliation removes `S`, leaves no
remaining transition or errorTransition targeting `S`, and purges `S`'s
stored position. -/
theorem cascade_on_node_deletion (origE newE : List FlowEdge) (origN newN : List FlowNode)
    (m : Machine) (S : String)
    (hdef : S ∈ m.states.map Prod.fst)
    (hin : S ∈ origN.map (fun n => n.id))
    (hout : S ∉ newN.map (fun n => n.id)) :
    noRefTo S (reconcile origE newE origN newN m).1 := by
  show noRefTo S
    (handle_deleted_nodes (newN.map fun n => n.id) origN
      (handle_deleted_edges (newE.map fun e => e.id) origE
        (handle_new_edges (origE.map fun e => e.id) newE m).1).1).1
  refine handle_deleted_nodes_cascades _ S origN _ hin hout ?_
  rw [handle_deleted_edges_keys, handle_new_edges_keys]
  exact hdef

/-- Witness for C2: deleting node `"a"` (referenced by a transition and the
errorTransition of `"b"`, with a stored position) removes every trace. -/
theorem cascade_on_node_deletion_witness :
    ("a" ∈ ([("a", defaultStateData),
        ("b",
          { defaultStateData with
            conditions := [⟨"True", "a"⟩, ⟨"x", "c"⟩],
            error := some "a" })].map Prod.fst)) ∧
    noRefTo "a"
      (reconcile [] [] [⟨"a", (0, 0), "", true⟩, ⟨"b", (0, 0), "", true⟩]
          [⟨"b", (0, 0), "", true⟩]
          ⟨[("a", defaultStateData),
            ("b",
              { defaultStateData with
                conditions := [⟨"True", "a"⟩, ⟨"x", "c"⟩],
                error := some "a" })],
            [("a", (1, 2)), ("b", (3, 4))]⟩).1 :=
  ⟨by decide,
    cascade_on_node_deletion [] [] [⟨"a", (0, 0), "", true⟩, ⟨"b", (0, 0), "", true⟩]
      [⟨"b", (0, 0), "", true⟩]
      ⟨[("a", defaultStateData),
        ("b",
          { defaultStateData with
            conditions := [⟨"True", "a"⟩, ⟨"x", "c"⟩],
            error := some "a" })],
        [("a", (1, 2)), ("b", (3, 4))]⟩
      "a" (by decide) (by decide) (by decide)⟩

/-! ## C5: role classification -/

/-- C5 counterexample: the claim says a state (id neither `"end"` nor
`"error"`) is Terminal exactly when it has outgoing transitions and every one
targets only states whose role is Terminal or ErrorRole. State `"x"` has one
transition, targeting the defined state `"y"`, and `"y"`'s role is Terminal
(`get_state_type` returns `"end"`), so the claim classifies `"x"` Terminal;
the code checks target ids literally against `("end", "error")` and returns
`"normal"` for `"x"`. -/
theorem role_classification_counterexample :
    (∀ c ∈ ({ defaultStateData with conditions := [⟨"True", "y"⟩] } : StateData).conditions,
      ∃ sd, lookupState
          [("x", { defaultStateData with conditions := [⟨"True", "y"⟩] }),
            ("y", { defaultStateData with conditions := [⟨"True", "end"⟩] })]
          c.next_state = some sd ∧
        get_state_type c.next_state sd = "end") ∧
    ({ defaultStateData with conditions := [⟨"True", "y"⟩] } : StateData).conditions ≠ [] ∧
    "x" ≠ "end" ∧ "x" ≠ "error" ∧
    get_state_type "x" { defaultStateData with conditions := [⟨"True", "y"⟩] } = "normal" := by
  refine ⟨?_, by decide, by decide, by decide, by decide⟩
  intro c hc
  simp only [List.mem_singleton] at hc
  subst hc
  exact ⟨{ defaultStateData with conditions := [⟨"True", "end"⟩] }, by decide, by decide⟩

/-- C5 amended: `get_state_type` returns `"end"` (Terminal) for id `"end"`,
`"error"` (ErrorRole) for id `"error"`; otherwise it returns `"end"` exactly
when the state has outgoing transitions and every one of them targets the
literal ids `"end"` or `"error"`, and `"normal"` otherwise. -/
theorem role_classification (name : String) (sd : StateData) :
    (name = "end" → get_state_type name sd = "end") ∧
    (name ≠ "end" → name = "error" → get_state_type name sd = "error") ∧
    (name ≠ "end" → name ≠ "error" →
      ((get_state_type name sd = "end" ↔
          sd.conditions ≠ [] ∧
            ∀ c ∈ sd.conditions, c.next_state = "end" ∨ c.next_state = "error") ∧
        (get_state_type name sd ≠ "end" → get_state_type name sd = "normal"))) := by
  refine ⟨?_, ?_, ?_⟩
  · intro h; simp [get_state_type, h]
  · intro h1 h2; simp [get_state_type, h1, h2]
  · intro h1 h2
    unfold get_state_type
    rw [if_neg h1, if_neg h2]
    by_cases hcond : sd.conditions ≠ [] ∧
        sd.conditions.all
          (fun c => decide (c.next_state = "end") || decide (c.next_state = "error"))
    · rw [if_pos hcond]
      constructor
      · constructor
        · intro _
          refine ⟨hcond.1, ?_⟩
          have := hcond.2
          simp only [List.all_eq_true, Bool.or_eq_true, decide_eq_true_eq] at this
          exact this
        · intro _; rfl
      · intro h; exact absurd rfl h
    · rw [if_neg hcond]
      constructor
      · constructor
        · intro h; exact absurd h.symm (by decide)
        · intro ⟨hne, hall⟩
          exfalso
          apply hcond
          refine ⟨hne, ?_⟩
          simp only [List.all_eq_true, Bool.or_eq_true, decide_eq_true_eq]
          exact hall
      · intro _; rfl

/-- Witness for the amended C5: a state whose transitions all target `"end"`
or `"error"` classifies as `"end"`. -/
theorem role_classification_witness :
    get_state_type "x"
        { defaultStateData with conditions := [⟨"a", "end"⟩, ⟨"b", "error"⟩] } = "end" :=
  ((role_classification "x"
        { defaultStateData with conditions := [⟨"a", "end"⟩, ⟨"b", "error"⟩] }).2.2
      (by decide) (by decide)).1.mpr (by decide)

/-! ## C8: persistence encoding policy -/

/-- C8 counterexample: when no prior record exists for the name (neither a
YAML nor a JSON file) and the caller does not request YAML, `save_mission_type`
writes the brace-delimited (JSON) encoding, not the structured
indentation-based (YAML) encoding the claim names as the default. -/
theorem encoding_default_counterexample :
    (save_mission_type false false ([("description", 0)] : List (String × Nat)) false).format
        = FileFormat.json ∧
    (save_mission_type false false ([("description", 0)] : List (String × Nat)) false).format
        ≠ FileFormat.yaml := by
  decide

/-- C8 amended: the YAML (structured-indentation) encoding is chosen iff a
YAML file already exists for the name or the caller requests YAML; a YAML
save removes the JSON file. Hence when the caller does not request YAML the
prior encoding is preserved, and absent any prior record the brace-delimited
(JSON) encoding is the default. -/
theorem encoding_policy {V : Type} (jsonExists yamlExists preferYaml : Bool)
    (config : List (String × V)) :
    ((save_mission_type jsonExists yamlExists config preferYaml).format = FileFormat.yaml ↔
      (yamlExists = true ∨ preferYaml = true)) ∧
    (yamlExists = false → preferYaml = false →
      (save_mission_type jsonExists yamlExists config preferYaml).format = FileFormat.json) ∧
    ((save_mission_type jsonExists yamlExists config preferYaml).format = FileFormat.yaml →
      (save_mission_type jsonExists yamlExists config preferYaml).jsonExists = false) := by
  cases yamlExists <;> cases preferYaml <;> simp [save_mission_type]

/-- Witness for the amended C8: a prior YAML file forces the YAML encoding
even with `prefer_yaml = False`, and the JSON file is gone afterwards. -/
theorem encoding_policy_witness :
    (save_mission_type true true ([("description", 0)] : List (String × Nat)) false).format
        = FileFormat.yaml ∧
    (save_mission_type true true ([("description", 0)] : List (String × Nat)) false).jsonExists
        = false :=
  ⟨(encoding_policy true true false [("description", 0)]).1.mpr (Or.inl rfl),
    (encoding_policy true true false [("description", 0)]).2.2
      ((encoding_policy true true false [("description", 0)]).1.mpr (Or.inl rfl))⟩

/-! ## C9: visual-metadata sidecar -/

/-- C9 counterexample: `save_mission_type` does NOT store the visual metadata
alongside the persisted spec — it strips `ui_metadata` before writing
(line 142), so the saved dictionary of a config carrying `ui_metadata` has no
`ui_metadata` key. -/
theorem sidecar_counterexample :
    "ui_metadata" ∈
        ([("description", 0), ("default_state", 1), ("ui_metadata", 2)] :
            List (String × Nat)).map Prod.fst ∧
    "ui_metadata" ∉
        (save_mission_type false false
            ([("description", 0), ("default_state", 1), ("ui_metadata", 2)] :
              List (String × Nat)) true).savedConfig.map Prod.fst := by
  decide

/-- C9 amended: visual metadata is never persisted: every save strips the
`ui_metadata` key from the config before writing, and every other entry is
preserved unchanged (so the stored file — and hence any consumer of it — sees
only the logical spec). -/
theorem sidecar_stripped {V : Type} (jsonExists yamlExists preferYaml : Bool)
    (config : List (String × V)) :
    "ui_metadata" ∉
        (save_mission_type jsonExists yamlExists config preferYaml).savedConfig.map Prod.fst ∧
    (∀ k v, k ≠ "ui_metadata" →
      (((k, v) ∈ (save_mission_type jsonExists yamlExists config preferYaml).savedConfig) ↔
        (k, v) ∈ config)) := by
  have hsaved :
      (save_mission_type jsonExists yamlExists config preferYaml).savedConfig =
        configToSave config := by
    unfold save_mission_type
    cases yamlExists <;> cases preferYaml <;> simp
  rw [hsaved]
  constructor
  · intro h
    rw [List.mem_map] at h
    obtain ⟨p, hp, hp1⟩ := h
    have := (List.mem_filter.mp hp).2
    rw [hp1] at this
    simp at this
  · intro k v hk
    constructor
    · intro h; exact (List.mem_filter.mp h).1
    · intro h
      refine List.mem_filter.mpr ⟨h, ?_⟩
      simpa using hk

/-- Witness for the amended C9 on a concrete config. -/
theorem sidecar_stripped_witness :
    "ui_metadata" ∉
        (save_mission_type false false
            ([("description", 0), ("ui_metadata", 2)] : List (String × Nat))
            true).savedConfig.map Prod.fst ∧
    (("description", 0) ∈
      (save_mission_type false false
          ([("description", 0), ("ui_metadata", 2)] : List (String × Nat)) true).savedConfig) :=
  ⟨(sidecar_stripped false false true [("description", 0), ("ui_metadata", 2)]).1,
    ((sidecar_stripped false false true [("description", 0), ("ui_metadata", 2)]).2
        "description" 0 (by decide)).mpr (by decide)⟩

/-! ## C10: graceful degradation of malformed specs -/

/-- C10 counterexample: with an empty (or missing) `states` mapping and a
dangling non-empty `initial_state` (here `"ghost"`), normalization leaves
`initial_state` as `"ghost"` — it is not left empty as the claim states. -/
theorem degradation_counterexample :
    (normalizeConfig ⟨some "ghost", none⟩).states = [] ∧
    (normalizeConfig ⟨some "ghost", none⟩).initial_state = some "ghost" ∧
    ¬((normalizeConfig ⟨some "ghost", none⟩).initial_state = none ∨
      (normalizeConfig ⟨some "ghost", none⟩).initial_state = some "") := by
  decide

/-- C10 amended: a missing `states` mapping becomes the empty mapping; when
the (normalized) `states` mapping is non-empty, `initial_state` ends up equal
to some existing state key (in particular whenever it was missing or
dangling it is reassigned); with an empty `states` mapping `initial_state` is
left unchanged (in particular it stays empty when it was empty). -/
theorem degradation_normalization (c : RawConfig) :
    (normalizeConfig c).states = c.states.getD [] ∧
    ((normalizeConfig c).states ≠ [] →
      ∃ k, (normalizeConfig c).initial_state = some k ∧
        k ∈ (normalizeConfig c).states.map Prod.fst) ∧
    ((normalizeConfig c).states = [] →
      (normalizeConfig c).initial_state = c.initial_state) := by
  refine ⟨rfl, ?_, ?_⟩
  · intro hne
    have hne' : c.states.getD [] ≠ [] := hne
    have hhead : (c.states.getD []).map Prod.fst ≠ [] := by
      intro h
      exact hne' (List.map_eq_nil_iff.mp h)
    by_cases h1 : pyTruthy c.initial_state ∧
        (c.initial_state.getD "") ∉ (c.states.getD []).map Prod.fst ∧ c.states.getD [] ≠ []
    · refine ⟨((c.states.getD []).map Prod.fst).headD "", ?_, ?_⟩
      · simp [normalizeConfig, h1]
      · show ((c.states.getD []).map Prod.fst).headD "" ∈ (c.states.getD []).map Prod.fst
        cases hm : (c.states.getD []).map Prod.fst with
        | nil => exact absurd hm hhead
        | cons a l => simp
    · by_cases h2 : ¬ pyTruthy c.initial_state ∧ c.states.getD [] ≠ []
      · refine ⟨((c.states.getD []).map Prod.fst).headD "", ?_, ?_⟩
        · simp only [normalizeConfig]
          rw [if_neg h1, if_pos h2]
        · show ((c.states.getD []).map Prod.fst).headD "" ∈ (c.states.getD []).map Prod.fst
          cases hm : (c.states.getD []).map Prod.fst with
          | nil => exact absurd hm hhead
          | cons a l => simp
      · -- initial_state is truthy and already a key
        have htruthy : pyTruthy c.initial_state := by
          by_contra h
          exact h2 ⟨h, hne'⟩
        have hmem : (c.initial_state.getD "") ∈ (c.states.getD []).map Prod.fst := by
          by_contra h
          exact h1 ⟨htruthy, h, hne'⟩
        refine ⟨c.initial_state.getD "", ?_, ?_⟩
        · simp only [normalizeConfig]
          rw [if_neg h1, if_neg (by simp [htruthy])]
          cases hc : c.initial_state with
          | none => rw [hc] at htruthy; simp [pyTruthy] at htruthy
          | some s => simp [hc]
        · exact hmem
  · intro hempty
    have hempty' : c.states.getD [] = [] := hempty
    simp only [normalizeConfig]
    rw [if_neg (by simp [hempty']), if_neg (by simp [hempty'])]

/-- Witness for the amended C10: a dangling `initial_state` with one defined
state is reassigned to that state's key. -/
theorem degradation_normalization_witness :
    (normalizeConfig ⟨some "ghost", some [("search", defaultStateData)]⟩).states ≠ [] ∧
    ∃ k,
      (normalizeConfig ⟨some "ghost", some [("search", defaultStateData)]⟩).initial_state
          = some k ∧
        k ∈ (normalizeConfig
            ⟨some "ghost", some [("search", defaultStateData)]⟩).states.map Prod.fst :=
  ⟨by decide,
    (degradation_normalization ⟨some "ghost", some [("search", defaultStateData)]⟩).2.1
      (by decide)⟩

/-! ## C7: placeholder dedup -/

theorem insertSorted_perm (s : String) (l : List String) :
    (insertSorted s l).Perm (s :: l) := by
  induction l with
  | nil => exact List.Perm.refl _
  | cons x xs ih =>
    unfold insertSorted
    by_cases h : strLe s x = true
    · rw [if_pos h]
    · rw [if_neg h]
      exact (ih.cons x).trans (List.Perm.swap s x xs)

theorem sortKeys_perm (l : List String) : (sortKeys l).Perm l := by
  induction l with
  | nil => exact List.Perm.refl _
  | cons x xs ih => exact (insertSorted_perm x (sortKeys xs)).trans (ih.cons x)

theorem mem_sortKeys (l : List String) (a : String) : a ∈ sortKeys l ↔ a ∈ l :=
  (sortKeys_perm l).mem_iff

/-- Membership in the per-state reference contribution lists. -/
theorem mem_collect_aux (l : List (String × StateData)) (r : String) :
    ∀ init : List String,
      (r ∈ l.foldl
          (fun acc p =>
            acc
              ++ p.2.conditions.filterMap
                  (fun c => if c.next_state = "" then none else some c.next_state)
              ++ (match p.2.error with
                  | some t => if t = "" then [] else [t]
                  | none => []))
          init) ↔
        r ∈ init ∨
          ∃ p ∈ l, r ≠ "" ∧ ((∃ c ∈ p.2.conditions, c.next_state = r) ∨ p.2.error = some r) := by
  induction l with
  | nil => intro init; simp
  | cons p ps ih =>
    intro init
    rw [List.foldl_cons, ih]
    have hcond :
        (r ∈ p.2.conditions.filterMap
            (fun c => if c.next_state = "" then none else some c.next_state)) ↔
          r ≠ "" ∧ ∃ c ∈ p.2.conditions, c.next_state = r := by
      rw [List.mem_filterMap]
      constructor
      · rintro ⟨c, hc, hf⟩
        by_cases h0 : c.next_state = ""
        · rw [if_pos h0] at hf; exact absurd hf (by simp)
        · rw [if_neg h0] at hf
          obtain rfl := Option.some.inj hf
          exact ⟨h0, c, hc, rfl⟩
      · rintro ⟨h0, c, hc, rfl⟩
        exact ⟨c, hc, by rw [if_neg h0]⟩
    have herr :
        (r ∈ (match p.2.error with
            | some t => if t = "" then [] else [t]
            | none => ([] : List String))) ↔
          r ≠ "" ∧ p.2.error = some r := by
      cases he : p.2.error with
      | none => simp
      | some t =>
        by_cases h0 : t = ""
        · subst h0
          simp
          exact fun h h2 => h h2.symm
        · simp only [if_neg h0, List.mem_singleton]
          constructor
          · rintro rfl; exact ⟨h0, rfl⟩
          · rintro ⟨_, ht⟩; exact (Option.some.inj ht).symm
    constructor
    · rintro (hmem | hrest)
      · rcases List.mem_append.mp hmem with hmem2 | hmem2
        · rcases List.mem_append.mp hmem2 with hinit | hc
          · exact Or.inl hinit
          · obtain ⟨h0, hc⟩ := hcond.mp hc
            exact Or.inr ⟨p, List.mem_cons_self p ps, h0, Or.inl hc⟩
        · obtain ⟨h0, he⟩ := herr.mp hmem2
          exact Or.inr ⟨p, List.mem_cons_self p ps, h0, Or.inr he⟩
      · obtain ⟨q, hq, h0, hcase⟩ := hrest
        exact Or.inr ⟨q, List.mem_cons_of_mem p hq, h0, hcase⟩
    · rintro (hinit | ⟨q, hq, h0, hcase⟩)
      · exact Or.inl (List.mem_append.mpr (Or.inl (List.mem_append.mpr (Or.inl hinit))))
      · rcases List.mem_cons.mp hq with rfl | hq'
        · rcases hcase with hc | he
          · exact Or.inl (List.mem_append.mpr
              (Or.inl (List.mem_append.mpr (Or.inr (hcond.mpr ⟨h0, hc⟩)))))
          · exact Or.inl (List.mem_append.mpr (Or.inr (herr.mpr ⟨h0, he⟩)))
        · exact Or.inr ⟨q, hq', h0, hcase⟩

theorem mem_collectRefs (states : List (String × StateData)) (r : String) :
    r ∈ collectRefs states ↔
      r ≠ "" ∧ ∃ p ∈ states, (∃ c ∈ p.2.conditions, c.next_state = r) ∨ p.2.error = some r := by
  unfold collectRefs
  rw [List.mem_dedup, mem_collect_aux]
  simp only [List.not_mem_nil, false_or]
  constructor
  · rintro ⟨p, hp, h0, hcase⟩; exact ⟨h0, p, hp, hcase⟩
  · rintro ⟨h0, p, hp, hcase⟩; exact ⟨p, hp, h0, hcase⟩

theorem all_not_id_iff (acc : List FlowNode) (r : String) :
    (acc.all (fun n => !decide (n.id = r)) = true) ↔
      acc.countP (fun n => decide (n.id = r)) = 0 := by
  rw [List.all_eq_true, List.countP_eq_zero]
  simp

theorem addPlaceholders_count_stays_one (states : List (String × StateData))
    (positions : List (String × (Int × Int))) (r : String) :
    ∀ (refs : List String) (acc : List FlowNode),
      acc.countP (fun n => decide (n.id = r)) = 1 →
      (addPlaceholders states positions acc refs).countP (fun n => decide (n.id = r)) = 1 := by
  intro refs
  induction refs with
  | nil => intro acc h; exact h
  | cons x xs ih =>
    intro acc h
    unfold addPlaceholders
    rw [List.foldl_cons]
    by_cases hcond : x ≠ "" ∧ lookupState states x = none ∧
        acc.all (fun n => !decide (n.id = x)) = true
    · rw [if_pos hcond]
      have hxr : x ≠ r := by
        rintro rfl
        rw [all_not_id_iff] at hcond
        exact absurd h (by rw [hcond.2.2]; decide)
      have : (acc ++ [mkPlaceholder x positions acc.length]).countP
          (fun n => decide (n.id = r)) = 1 := by
        rw [List.countP_append, h]
        have : (mkPlaceholder x positions acc.length).id = x := rfl
        simp [List.countP_cons, this, hxr]
      exact ih _ this
    · rw [if_neg hcond]
      exact ih _ h

theorem addPlaceholders_count_becomes_one (states : List (String × StateData))
    (positions : List (String × (Int × Int))) (r : String) (hr : r ≠ "")
    (hundef : lookupState states r = none) :
    ∀ (refs : List String) (acc : List FlowNode),
      r ∈ refs → acc.countP (fun n => decide (n.id = r)) = 0 →
      (addPlaceholders states positions acc refs).countP (fun n => decide (n.id = r)) = 1 := by
  intro refs
  induction refs with
  | nil => intro acc h _; simp at h
  | cons x xs ih =>
    intro acc hmem hcount
    unfold addPlaceholders
    rw [List.foldl_cons]
    by_cases hxr : x = r
    · subst hxr
      rw [if_pos ⟨hr, hundef, (all_not_id_iff acc x).mpr hcount⟩]
      have hone : (acc ++ [mkPlaceholder x positions acc.length]).countP
          (fun n => decide (n.id = x)) = 1 := by
        rw [List.countP_append, hcount]
        have : (mkPlaceholder x positions acc.length).id = x := rfl
        simp [List.countP_cons, this]
      exact addPlaceholders_count_stays_one states positions x xs _ hone
    · have hmem' : r ∈ xs := by
        rcases List.mem_cons.mp hmem with h | h
        · exact absurd h.symm hxr
        · exact h
      by_cases hcond : x ≠ "" ∧ lookupState states x = none ∧
          acc.all (fun n => !decide (n.id = x)) = true
      · rw [if_pos hcond]
        have : (acc ++ [mkPlaceholder x positions acc.length]).countP
            (fun n => decide (n.id = r)) = 0 := by
          rw [List.countP_append, hcount]
          have hid : (mkPlaceholder x positions acc.length).id = x := rfl
          simp [List.countP_cons, hid, hxr]
        exact ih _ hmem' this
      · rw [if_neg hcond]
        exact ih _ hmem' hcount

theorem addPlaceholders_undef (states : List (String × StateData))
    (positions : List (String × (Int × Int))) :
    ∀ (refs : List String) (acc : List FlowNode),
      (∀ n ∈ acc, n.deletable = false → lookupState states n.id = none) →
      ∀ n ∈ addPlaceholders states positions acc refs,
        n.deletable = false → lookupState states n.id = none := by
  intro refs
  induction refs with
  | nil => intro acc h; exact h
  | cons x xs ih =>
    intro acc hacc
    unfold addPlaceholders
    rw [List.foldl_cons]
    by_cases hcond : x ≠ "" ∧ lookupState states x = none ∧
        acc.all (fun n => !decide (n.id = x)) = true
    · rw [if_pos hcond]
      refine ih _ ?_
      intro n hn hdel
      rcases List.mem_append.mp hn with h | h
      · exact hacc n h hdel
      · rw [List.mem_singleton] at h
        subst h
        exact hcond.2.1
    · rw [if_neg hcond]
      exact ih _ hacc

/-- C7: every target id referenced by a transition or error-transition of any
state, and backed by no defined state, yields exactly one node in the
projection (deduplicated across all references), and no non-deletable
(placeholder) node carries the id of a defined state. -/
theorem placeholder_dedup (states : List (String × StateData)) (initial : String)
    (positions : List (String × (Int × Int))) (r : String)
    (hr : r ≠ "")
    (href : ∃ p ∈ states, (∃ c ∈ p.2.conditions, c.next_state = r) ∨ p.2.error = some r)
    (hundef : lookupState states r = none) :
    ((build_graph_elements states initial positions).1.countP
        (fun n => decide (n.id = r)) = 1) ∧
    (∀ n ∈ (build_graph_elements states initial positions).1, n.deletable = false →
      lookupState states n.id = none) := by
  have hnodes : (build_graph_elements states initial positions).1 =
      addPlaceholders states positions
        ((sortKeys (states.map Prod.fst)).enum.map
          (fun p => mkStateNode p.1 p.2 (lookupData states p.2) initial positions))
        (collectRefs states) := rfl
  have hdefzero :
      ((sortKeys (states.map Prod.fst)).enum.map
        (fun p => mkStateNode p.1 p.2 (lookupData states p.2) initial positions)).countP
          (fun n => decide (n.id = r)) = 0 := by
    rw [List.countP_eq_zero]
    intro n hn
    obtain ⟨q, hq, rfl⟩ := List.mem_map.mp hn
    have hid : (mkStateNode q.1 q.2 (lookupData states q.2) initial positions).id = q.2 := rfl
    rw [hid]
    simp only [decide_eq_true_eq]
    intro hqr
    have hmem : q.2 ∈ sortKeys (states.map Prod.fst) := by
      have := List.mem_map_of_mem Prod.snd hq
      rwa [List.enum_map_snd] at this
    rw [mem_sortKeys, hqr] at hmem
    have := (lookupState_isSome_iff states r).mpr hmem
    rw [hundef] at this
    exact absurd this (by decide)
  constructor
  · rw [hnodes]
    exact addPlaceholders_count_becomes_one states positions r hr hundef
      (collectRefs states) _ ((mem_collectRefs states r).mpr ⟨hr, href⟩) hdefzero
  · rw [hnodes]
    refine addPlaceholders_undef states positions (collectRefs states) _ ?_
    intro n hn hdel
    obtain ⟨q, hq, rfl⟩ := List.mem_map.mp hn
    have : (mkStateNode q.1 q.2 (lookupData states q.2) initial positions).deletable = true :=
      rfl
    rw [this] at hdel
    exact absurd hdel (by decide)

/-- Witness for C7: two states both referencing undefined `"end"` produce
exactly one `"end"` node. -/
theorem placeholder_dedup_witness :
    (((build_graph_elements
          [("a", { defaultStateData with conditions := [⟨"True", "end"⟩] }),
            ("b", { defaultStateData with conditions := [⟨"x", "end"⟩], error := some "end" })]
          "a" []).1.countP (fun n => decide (n.id = "end"))) = 1) :=
  (placeholder_dedup
      [("a", { defaultStateData with conditions := [⟨"True", "end"⟩] }),
        ("b", { defaultStateData with conditions := [⟨"x", "end"⟩], error := some "end" })]
      "a" [] "end" (by decide)
      ⟨("a", { defaultStateData with conditions := [⟨"True", "end"⟩] }),
        List.mem_cons_self _ _, Or.inl ⟨⟨"True", "end"⟩, List.mem_cons_self _ _, rfl⟩⟩
      (by decide)).1

/-! ## C6: edge grouping and error-edge separation -/

theorem mapFst_addEntry (acc : List (String × List (Nat × String))) (k : String)
    (v : Nat × String) :
    (addEntry acc k v).map Prod.fst =
      if k ∈ acc.map Prod.fst then acc.map Prod.fst else acc.map Prod.fst ++ [k] := by
  induction acc with
  | nil => simp [addEntry]
  | cons p rest ih =>
    obtain ⟨k', vs⟩ := p
    by_cases h : k' = k
    · subst h
      simp [addEntry]
    · simp only [addEntry, if_neg h, List.map_cons, ih]
      by_cases hm : k ∈ rest.map Prod.fst
      · rw [if_pos hm, if_pos (List.mem_cons_of_mem k' hm)]
      · rw [if_neg hm, if_neg (by
          intro hc
          rcases List.mem_cons.mp hc with hc | hc
          · exact h hc.symm
          · exact hm hc), List.cons_append]

theorem addEntry_nil (k : String) (v : Nat × String) : addEntry [] k v = [(k, [v])] := rfl

theorem addEntry_cons_same (k : String) (vs : List (Nat × String))
    (rest : List (String × List (Nat × String))) (v : Nat × String) :
    addEntry ((k, vs) :: rest) k v = (k, vs ++ [v]) :: rest := by
  simp [addEntry]

theorem addEntry_cons_ne (k0 k : String) (vs : List (Nat × String))
    (rest : List (String × List (Nat × String))) (v : Nat × String) (h : k0 ≠ k) :
    addEntry ((k0, vs) :: rest) k v = (k0, vs) :: addEntry rest k v := by
  simp [addEntry, h]

theorem entryFor_nil (k : String) : entryFor [] k = [] := rfl

theorem entryFor_cons_self (k : String) (vs : List (Nat × String))
    (rest : List (String × List (Nat × String))) : entryFor ((k, vs) :: rest) k = vs := by
  simp [entryFor]

theorem entryFor_cons_ne (k0 k : String) (vs : List (Nat × String))
    (rest : List (String × List (Nat × String))) (h : k0 ≠ k) :
    entryFor ((k0, vs) :: rest) k = entryFor rest k := by
  simp [entryFor, h]

theorem entryFor_addEntry_same (acc : List (String × List (Nat × String))) (k : String)
    (v : Nat × String) : entryFor (addEntry acc k v) k = entryFor acc k ++ [v] := by
  induction acc with
  | nil => rw [addEntry_nil, entryFor_cons_self, entryFor_nil, List.nil_append]
  | cons p rest ih =>
    obtain ⟨k0, vs⟩ := p
    by_cases h : k0 = k
    · subst h
      rw [addEntry_cons_same, entryFor_cons_self, entryFor_cons_self]
    · rw [addEntry_cons_ne k0 k vs rest v h, entryFor_cons_ne k0 k _ _ h,
        entryFor_cons_ne k0 k vs rest h]
      exact ih

theorem entryFor_addEntry_ne (acc : List (String × List (Nat × String))) (k kq : String)
    (v : Nat × String) (h : kq ≠ k) : entryFor (addEntry acc k v) kq = entryFor acc kq := by
  induction acc with
  | nil =>
    rw [addEntry_nil, entryFor_cons_ne k kq [v] [] (fun hc => h hc.symm), entryFor_nil]
  | cons p rest ih =>
    obtain ⟨k0, vs⟩ := p
    by_cases h0 : k0 = k
    · subst h0
      rw [addEntry_cons_same]
      rw [entryFor_cons_ne k0 kq _ rest (fun hc => h hc.symm),
        entryFor_cons_ne k0 kq vs rest (fun hc => h hc.symm)]
    · rw [addEntry_cons_ne k0 k vs rest v h0]
      by_cases h1 : k0 = kq
      · subst h1
        rw [entryFor_cons_self, entryFor_cons_self]
      · rw [entryFor_cons_ne k0 kq _ _ h1, entryFor_cons_ne k0 kq vs rest h1]
        exact ih

theorem groupByTarget_concat (l : List (Nat × Transition)) (jc : Nat × Transition) :
    groupByTarget (l ++ [jc]) =
      if jc.2.next_state = "" then groupByTarget l
      else addEntry (groupByTarget l) jc.2.next_state (jc.1, jc.2.condition) := by
  unfold groupByTarget
  rw [List.foldl_append, List.foldl_cons, List.foldl_nil]

theorem entryFor_groupByTarget (k : String) (hk : k ≠ "") (l : List (Nat × Transition)) :
    entryFor (groupByTarget l) k =
      (l.filter (fun jc => decide (jc.2.next_state = k))).map
        (fun jc => (jc.1, jc.2.condition)) := by
  induction l using List.reverseRecOn with
  | nil => rfl
  | append_singleton l jc ih =>
    rw [groupByTarget_concat, List.filter_append, List.map_append]
    by_cases h1 : jc.2.next_state = k
    · have h0 : ¬ jc.2.next_state = "" := by
        rw [h1]
        exact hk
      have hf : List.filter (fun x => decide (x.2.next_state = k)) [jc] = [jc] := by
        simp [h1]
      rw [if_neg h0, h1, entryFor_addEntry_same, ih, hf]
      rfl
    · have hf : List.filter (fun x => decide (x.2.next_state = k)) [jc] = [] := by
        simp [h1]
      rw [hf]
      by_cases h0 : jc.2.next_state = ""
      · rw [if_pos h0, ih]
        simp
      · rw [if_neg h0, entryFor_addEntry_ne _ _ _ _ (fun hc => h1 hc.symm), ih]
        simp

theorem mem_keys_groupByTarget (k : String) (hk : k ≠ "") (l : List (Nat × Transition)) :
    k ∈ (groupByTarget l).map Prod.fst ↔ ∃ jc ∈ l, jc.2.next_state = k := by
  induction l using List.reverseRecOn with
  | nil => simp [groupByTarget]
  | append_singleton l jc ih =>
    rw [groupByTarget_concat]
    have hsplit : (∃ q ∈ l ++ [jc], q.2.next_state = k) ↔
        (∃ q ∈ l, q.2.next_state = k) ∨ jc.2.next_state = k := by
      constructor
      · rintro ⟨q, hq, hqk⟩
        rcases List.mem_append.mp hq with h | h
        · exact Or.inl ⟨q, h, hqk⟩
        · rw [List.mem_singleton] at h
          subst h
          exact Or.inr hqk
      · rintro (⟨q, hq, hqk⟩ | hjc)
        · exact ⟨q, List.mem_append.mpr (Or.inl hq), hqk⟩
        · exact ⟨jc, List.mem_append.mpr (Or.inr (List.mem_singleton_self jc)), hjc⟩
    rw [hsplit]
    by_cases h0 : jc.2.next_state = ""
    · rw [if_pos h0, ih]
      have hnk : ¬ jc.2.next_state = k := by
        rw [h0]
        exact fun hc => hk hc.symm
      constructor
      · exact fun h => Or.inl h
      · rintro (h | h)
        · exact h
        · exact absurd h hnk
    · rw [if_neg h0, mapFst_addEntry]
      by_cases hm : jc.2.next_state ∈ (groupByTarget l).map Prod.fst
      · rw [if_pos hm, ih]
        constructor
        · exact fun h => Or.inl h
        · rintro (h | h)
          · exact h
          · exact ih.mp (h ▸ hm)
      · rw [if_neg hm, List.mem_append, List.mem_singleton, ih]
        constructor
        · rintro (h | h)
          · exact Or.inl h
          · exact Or.inr h.symm
        · rintro (h | h)
          · exact Or.inl h
          · exact Or.inr h.symm

theorem nodup_keys_groupByTarget (l : List (Nat × Transition)) :
    ((groupByTarget l).map Prod.fst).Nodup := by
  induction l using List.reverseRecOn with
  | nil => simp [groupByTarget]
  | append_singleton l jc ih =>
    rw [groupByTarget_concat]
    by_cases h0 : jc.2.next_state = ""
    · rw [if_pos h0]
      exact ih
    · rw [if_neg h0, mapFst_addEntry]
      by_cases hm : jc.2.next_state ∈ (groupByTarget l).map Prod.fst
      · rw [if_pos hm]
        exact ih
      · rw [if_neg hm, List.nodup_append]
        refine ⟨ih, List.nodup_singleton _, ?_⟩
        intro a ha hb
        rw [List.mem_singleton] at hb
        subst hb
        exact hm ha

theorem entryFor_of_mem (acc : List (String × List (Nat × String))) (k : String)
    (vs : List (Nat × String)) (hnodup : (acc.map Prod.fst).Nodup)
    (hmem : (k, vs) ∈ acc) : entryFor acc k = vs := by
  induction acc with
  | nil => simp at hmem
  | cons p rest ih =>
    obtain ⟨kp, vp⟩ := p
    rw [List.map_cons] at hnodup
    rcases List.mem_cons.mp hmem with heq | hmem2
    · injection heq with h1 h2
      subst h1
      subst h2
      exact entryFor_cons_self k vs rest
    · have hk : kp ≠ k := by
        intro hc
        apply (List.nodup_cons.mp hnodup).1
        rw [hc]
        exact List.mem_map.mpr ⟨(k, vs), hmem2, rfl⟩
      rw [entryFor_cons_ne kp k vp rest hk]
      exact ih (List.nodup_cons.mp hnodup).2 hmem2

theorem countP_congr_list {α : Type} (l : List α) (p q : α → Bool)
    (h : ∀ x ∈ l, p x = q x) : l.countP p = l.countP q := by
  induction l with
  | nil => rfl
  | cons x xs ih =>
    rw [List.countP_cons, List.countP_cons, h x (List.mem_cons_self x xs),
      ih (fun y hy => h y (List.mem_cons_of_mem x hy))]

theorem countP_key_pairs {β : Type} (l : List (String × β)) (B : String)
    (h : (l.map Prod.fst).Nodup) :
    l.countP (fun g => decide (g.1 = B)) = if B ∈ l.map Prod.fst then 1 else 0 := by
  induction l with
  | nil => simp
  | cons x xs ih =>
    rw [List.map_cons] at h
    obtain ⟨hx, hxs⟩ := List.nodup_cons.mp h
    rw [List.countP_cons, List.map_cons]
    by_cases hxB : x.1 = B
    · have hB : B ∉ xs.map Prod.fst := by rw [← hxB]; exact hx
      rw [ih hxs, if_neg hB, if_pos (List.mem_cons.mpr (Or.inl hxB.symm))]
      simp [hxB]
    · have hd : decide (x.1 = B) = false := decide_eq_false hxB
      rw [ih hxs, hd]
      simp only [Bool.false_eq_true, if_false, add_zero]
      by_cases hB : B ∈ xs.map Prod.fst
      · rw [if_pos hB, if_pos (List.mem_cons_of_mem _ hB)]
      · rw [if_neg hB, if_neg (by
          intro hc
          rcases List.mem_cons.mp hc with hc | hc
          · exact hxB hc.symm
          · exact hB hc)]

theorem exists_enum_iff (l : List Transition) (B : String) :
    (∃ jc ∈ l.enum, jc.2.next_state = B) ↔ ∃ c ∈ l, c.next_state = B := by
  constructor
  · rintro ⟨jc, hjc, hk⟩
    refine ⟨jc.2, ?_, hk⟩
    have := List.mem_map_of_mem Prod.snd hjc
    rwa [List.enum_map_snd] at this
  · rintro ⟨c, hc, hk⟩
    rw [← List.enum_map_snd l] at hc
    obtain ⟨jc, hjc, rfl⟩ := List.mem_map.mp hc
    exact ⟨jc, hjc, hk⟩

theorem mem_errorEdges (n : String) (sd : StateData) (e : FlowEdge)
    (he : e ∈ errorEdges n sd) :
    ∃ t, sd.error = some t ∧ t ≠ "" ∧
      e = { id := n ++ "|" ++ t ++ "|error", source := n, target := t,
            label := "⚠️ error", errStyle := true } := by
  unfold errorEdges at he
  cases hes : sd.error with
  | none =>
    rw [hes] at he
    exact absurd he (List.not_mem_nil e)
  | some t =>
    rw [hes] at he
    change e ∈ (if t = "" then ([] : List FlowEdge)
      else [{ id := n ++ "|" ++ t ++ "|error", source := n, target := t,
              label := "⚠️ error", errStyle := true }]) at he
    by_cases h0 : t = ""
    · rw [if_pos h0] at he
      exact absurd he (List.not_mem_nil e)
    · rw [if_neg h0, List.mem_singleton] at he
      exact ⟨t, rfl, h0, he⟩

theorem edgesForState_source (n : String) (sd : StateData) (e : FlowEdge)
    (he : e ∈ edgesForState n sd) : e.source = n := by
  rcases List.mem_append.mp he with h | h
  · obtain ⟨g, hg, rfl⟩ := List.mem_map.mp h
    rfl
  · obtain ⟨t, _, _, rfl⟩ := mem_errorEdges n sd e h
    rfl

theorem countP_transitionEdges_ord (A B : String) (hB : B ≠ "") (sd : StateData) :
    (transitionEdges A sd).countP
        (fun e => decide (e.source = A ∧ e.target = B ∧ e.errStyle = false)) =
      if sd.conditions.any (fun c => decide (c.next_state = B)) then 1 else 0 := by
  unfold transitionEdges
  rw [List.countP_map]
  rw [countP_congr_list _ _ (fun g => decide (g.1 = B))
    (fun g _ => by
      rw [Function.comp_apply, decide_eq_decide]
      constructor
      · rintro ⟨_, h2, _⟩
        exact h2
      · intro h
        exact ⟨rfl, h, rfl⟩)]
  rw [countP_key_pairs _ B (nodup_keys_groupByTarget _)]
  have hiff : (B ∈ (groupByTarget sd.conditions.enum).map Prod.fst) ↔
      (sd.conditions.any (fun c => decide (c.next_state = B)) = true) := by
    rw [mem_keys_groupByTarget B hB, List.any_eq_true]
    constructor
    · intro h
      obtain ⟨c, hc, hk⟩ := (exists_enum_iff sd.conditions B).mp h
      exact ⟨c, hc, by simp [hk]⟩
    · rintro ⟨c, hc, hp⟩
      simp only [decide_eq_true_eq] at hp
      exact (exists_enum_iff sd.conditions B).mpr ⟨c, hc, hp⟩
  exact if_congr hiff rfl rfl

theorem countP_transitionEdges_err (A B : String) (sd : StateData) :
    (transitionEdges A sd).countP
        (fun e => decide (e.source = A ∧ e.target = B ∧ e.errStyle = true)) = 0 := by
  rw [List.countP_eq_zero]
  intro e he
  obtain ⟨g, hg, rfl⟩ := List.mem_map.mp he
  simp [mkGroupEdge]

theorem countP_errorEdges_ord (A B : String) (sd : StateData) :
    (errorEdges A sd).countP
        (fun e => decide (e.source = A ∧ e.target = B ∧ e.errStyle = false)) = 0 := by
  rw [List.countP_eq_zero]
  intro e he
  obtain ⟨t, _, _, rfl⟩ := mem_errorEdges A sd e he
  simp

theorem countP_errorEdges_err (A B : String) (hB : B ≠ "") (sd : StateData) :
    (errorEdges A sd).countP
        (fun e => decide (e.source = A ∧ e.target = B ∧ e.errStyle = true)) =
      if sd.error = some B then 1 else 0 := by
  unfold errorEdges
  cases hes : sd.error with
  | none => simp
  | some t =>
    change (List.countP (fun e => decide (e.source = A ∧ e.target = B ∧ e.errStyle = true))
      (if t = "" then ([] : List FlowEdge)
       else [{ id := A ++ "|" ++ t ++ "|error", source := A, target := t,
               label := "⚠️ error", errStyle := true }])) = if some t = some B then 1 else 0
    by_cases h0 : t = ""
    · subst h0
      rw [if_pos rfl, if_neg (fun hc => hB (Option.some.inj hc).symm)]
      rfl
    · rw [if_neg h0]
      by_cases htB : t = B
      · subst htB
        rw [if_pos rfl]
        simp [List.countP_cons]
      · rw [if_neg (fun hc => htB (Option.some.inj hc))]
        simp [List.countP_cons, htB]

theorem foldl_append_eq_bind {α β : Type} (g : α → List β) (l : List α) :
    ∀ init, l.foldl (fun acc x => acc ++ g x) init = init ++ l.flatMap g := by
  induction l with
  | nil => intro init; simp
  | cons x xs ih =>
    intro init
    rw [List.foldl_cons, ih, List.flatMap_cons, List.append_assoc]

theorem countP_bind_zero {α β : Type} (g : α → List β) (p : β → Bool) (l : List α)
    (h : ∀ x ∈ l, (g x).countP p = 0) : (l.flatMap g).countP p = 0 := by
  induction l with
  | nil => simp
  | cons x xs ih =>
    rw [List.flatMap_cons, List.countP_append, h x (List.mem_cons_self x xs),
      ih (fun y hy => h y (List.mem_cons_of_mem x hy))]

theorem countP_bind_unique {α β : Type} (g : α → List β) (p : β → Bool)
    (l : List α) (A : α) (hnodup : l.Nodup) (hA : A ∈ l)
    (h0 : ∀ x ∈ l, x ≠ A → (g x).countP p = 0) :
    (l.flatMap g).countP p = (g A).countP p := by
  induction l with
  | nil => simp at hA
  | cons x xs ih =>
    rw [List.flatMap_cons, List.countP_append]
    obtain ⟨hx, hxs⟩ := List.nodup_cons.mp hnodup
    by_cases hxA : x = A
    · subst hxA
      have hz : (xs.flatMap g).countP p = 0 :=
        countP_bind_zero g p xs
          (fun y hy => h0 y (List.mem_cons_of_mem x hy) (fun hc => hx (hc ▸ hy)))
      rw [hz, add_zero]
    · rw [h0 x (List.mem_cons_self x xs) hxA, zero_add]
      have hA2 : A ∈ xs := by
        rcases List.mem_cons.mp hA with h | h
        · exact absurd h.symm hxA
        · exact h
      exact ih hxs hA2 (fun y hy hne => h0 y (List.mem_cons_of_mem x hy) hne)

/-- C6: one visual edge per (source, target) pair of ordinary transitions,
with an id encoding the ascending indices of all grouped transitions; the
errorTransition is its own edge with id `source|target|error` and is never
merged with ordinary edges sharing the target. -/
theorem edge_grouping_and_error_separation (states : List (String × StateData))
    (initial A B : String) (positions : List (String × (Int × Int))) (d : StateData)
    (hkeys : (states.map Prod.fst).Nodup)
    (hA : lookupState states A = some d)
    (hB : B ≠ "") :
    ((build_graph_elements states initial positions).2.countP
        (fun e => decide (e.source = A ∧ e.target = B ∧ e.errStyle = false)) =
      if d.conditions.any (fun c => decide (c.next_state = B)) then 1 else 0) ∧
    (∀ e ∈ (build_graph_elements states initial positions).2,
      e.source = A → e.target = B → e.errStyle = false →
        e.id = A ++ "|" ++ B ++ "|" ++
          joinWith ","
            (((d.conditions.enum.filter (fun jc => decide (jc.2.next_state = B))).map
                Prod.fst).map (fun i => toString i))) ∧
    List.Pairwise (· < ·)
      ((d.conditions.enum.filter (fun jc => decide (jc.2.next_state = B))).map Prod.fst) ∧
    ((build_graph_elements states initial positions).2.countP
        (fun e => decide (e.source = A ∧ e.target = B ∧ e.errStyle = true)) =
      if d.error = some B then 1 else 0) := by
  have hedges : (build_graph_elements states initial positions).2 =
      (sortKeys (states.map Prod.fst)).flatMap
        (fun n => edgesForState n (lookupData states n)) := by
    show (sortKeys (states.map Prod.fst)).foldl
        (fun acc n => acc ++ edgesForState n (lookupData states n)) [] = _
    rw [foldl_append_eq_bind, List.nil_append]
  have hnames_nodup : (sortKeys (states.map Prod.fst)).Nodup :=
    ((sortKeys_perm _).nodup_iff).mpr hkeys
  have hAmem : A ∈ sortKeys (states.map Prod.fst) :=
    (mem_sortKeys _ _).mpr ((lookupState_isSome_iff states A).mp (by rw [hA]; rfl))
  have hdataA : lookupData states A = d := by
    unfold lookupData
    rw [hA]
    rfl
  have hzero_ord : ∀ n ∈ sortKeys (states.map Prod.fst), n ≠ A →
      (edgesForState n (lookupData states n)).countP
        (fun e => decide (e.source = A ∧ e.target = B ∧ e.errStyle = false)) = 0 := by
    intro n _ hne
    rw [List.countP_eq_zero]
    intro e he
    have hs := edgesForState_source n _ e he
    simp only [decide_eq_true_eq, not_and]
    intro hsrc
    rw [hs] at hsrc
    exact absurd hsrc hne
  have hzero_err : ∀ n ∈ sortKeys (states.map Prod.fst), n ≠ A →
      (edgesForState n (lookupData states n)).countP
        (fun e => decide (e.source = A ∧ e.target = B ∧ e.errStyle = true)) = 0 := by
    intro n _ hne
    rw [List.countP_eq_zero]
    intro e he
    have hs := edgesForState_source n _ e he
    simp only [decide_eq_true_eq, not_and]
    intro hsrc
    rw [hs] at hsrc
    exact absurd hsrc hne
  refine ⟨?_, ?_, ?_, ?_⟩
  · rw [hedges, countP_bind_unique _ _ _ A hnames_nodup hAmem hzero_ord, hdataA]
    unfold edgesForState
    rw [List.countP_append, countP_transitionEdges_ord A B hB d,
      countP_errorEdges_ord A B d, add_zero]
  · intro e he hsrc htgt herr
    rw [hedges] at he
    obtain ⟨n, hn, he2⟩ := List.mem_flatMap.mp he
    have hsn := edgesForState_source n _ e he2
    have hnA : n = A := by rw [← hsn, hsrc]
    subst hnA
    rw [hdataA] at he2
    rcases List.mem_append.mp he2 with ht | herr2
    · obtain ⟨g, hg, rfl⟩ := List.mem_map.mp ht
      have hg1 : g.1 = B := htgt
      have hmemB : (B, g.2) ∈ groupByTarget d.conditions.enum := by
        have hpe : (B, g.2) = g := by rw [← hg1]
        rw [hpe]
        exact hg
      have hentry : entryFor (groupByTarget d.conditions.enum) B = g.2 :=
        entryFor_of_mem _ B g.2 (nodup_keys_groupByTarget _) hmemB
      have hchar := entryFor_groupByTarget B hB d.conditions.enum
      rw [hentry] at hchar
      show (mkGroupEdge n g.1 g.2).id = _
      unfold mkGroupEdge
      rw [hg1, hchar]
      simp only [List.map_map]
      rfl
    · obtain ⟨t, _, _, rfl⟩ := mem_errorEdges n d e herr2
      simp at herr
  · have hsub : ((d.conditions.enum.filter
        (fun jc => decide (jc.2.next_state = B))).map Prod.fst).Sublist
          (d.conditions.enum.map Prod.fst) :=
      List.Sublist.map Prod.fst (List.filter_sublist _)
    rw [List.enum_map_fst] at hsub
    exact List.Pairwise.sublist hsub (List.pairwise_lt_range _)
  · rw [hedges, countP_bind_unique _ _ _ A hnames_nodup hAmem hzero_err, hdataA]
    unfold edgesForState
    rw [List.countP_append, countP_transitionEdges_err A B d,
      countP_errorEdges_err A B hB d, zero_add]

/-- Witness for C6: a state `"a"` with three transitions all targeting `"b"`
projects to exactly one ordinary edge for the pair, and no error edge. -/
theorem edge_grouping_witness :
    ((build_graph_elements
        [("a", { defaultStateData with
                  conditions := [⟨"c1", "b"⟩, ⟨"c2", "b"⟩, ⟨"c3", "b"⟩] })]
        "a" []).2.countP
      (fun e => decide (e.source = "a" ∧ e.target = "b" ∧ e.errStyle = false)) = 1) ∧
    ((build_graph_elements
        [("a", { defaultStateData with
                  conditions := [⟨"c1", "b"⟩, ⟨"c2", "b"⟩, ⟨"c3", "b"⟩] })]
        "a" []).2.countP
      (fun e => decide (e.source = "a" ∧ e.target = "b" ∧ e.errStyle = true)) = 0) := by
  have h :=
    edge_grouping_and_error_separation
      [("a", { defaultStateData with
                conditions := [⟨"c1", "b"⟩, ⟨"c2", "b"⟩, ⟨"c3", "b"⟩] })]
      "a" "a" "b" []
      { defaultStateData with conditions := [⟨"c1", "b"⟩, ⟨"c2", "b"⟩, ⟨"c3", "b"⟩] }
      (by decide) (by decide) (by decide)
  exact ⟨h.1.trans (by decide), h.2.2.2.trans (by decide)⟩

end UavMission
